import Mathlib

set_option maxHeartbeats 1000000

/-!
Verification of the `mangohow/protobuf-go` name-casing helpers
(`ToCamelCase`, `ToPascalCase`, `ToSnakeCase` from
`cmd/protoc-gen-go/internal_gengo/namefuncs.go`) and of the
`RawFields.IsValid` wire-format scan from the `protoreflect` layer.

Strings are modelled as `List Char` (the sequence of runes a Go
`for ... range` loop visits).  The Go standard-library character
classifiers (`unicode.IsLetter`, `unicode.IsNumber`, `unicode.IsUpper`,
`unicode.ToLower`, `unicode.ToTitle`, `strings.isSeparator`) are
modelled on their ASCII fragment: the Unicode tables of the `unicode`
package are external to this repository, and on ASCII input the model
agrees with Go exactly.
-/

namespace ProtoGen

/-- ASCII fragment of Go `unicode.IsLetter`. -/
def isLetterGo (c : Char) : Bool :=
  ('A' ≤ c && c ≤ 'Z') || ('a' ≤ c && c ≤ 'z')

/-- ASCII fragment of Go `unicode.IsNumber`. -/
def isNumberGo (c : Char) : Bool :=
  '0' ≤ c && c ≤ '9'

/-- ASCII fragment of Go `unicode.IsUpper`. -/
def isUpperGo (c : Char) : Bool :=
  'A' ≤ c && c ≤ 'Z'

/-- ASCII fragment of Go `unicode.IsLower`. -/
def isLowerGo (c : Char) : Bool :=
  'a' ≤ c && c ≤ 'z'

/-- ASCII fragment of Go `unicode.ToLower`: shift an upper-case ASCII
letter down by 32, leave everything else unchanged. -/
def toLowerGo (c : Char) : Char :=
  if isUpperGo c then Char.ofNat (c.toNat + 32) else c

/-- ASCII fragment of Go `unicode.ToUpper`. -/
def toUpperGo (c : Char) : Char :=
  if isLowerGo c then Char.ofNat (c.toNat - 32) else c

/-- ASCII fragment of Go `unicode.ToTitle` (on ASCII, title case equals
upper case). -/
def toTitleGo (c : Char) : Char := toUpperGo c

/-- The split predicate passed to `strings.FieldsFunc` in `ToCamelCase`
and `ToPascalCase`: `!unicode.IsLetter(r) && !unicode.IsNumber(r)`. -/
def notAlnumGo (c : Char) : Bool := !(isLetterGo c || isNumberGo c)

/-- A letter-or-digit character (negation of the split predicate). -/
def isAlnumGo (c : Char) : Bool := isLetterGo c || isNumberGo c

/-- ASCII fragment of Go `strings.isSeparator`: ASCII alphanumerics and
the underscore are not separators, every other ASCII character is. -/
def isSeparatorGo (c : Char) : Bool :=
  !(isNumberGo c || isLetterGo c || c == '_')

/-- Go `strings.FieldsFunc(s, p)`, translated with an explicit
accumulator for the field currently being collected: characters where
`p` holds are separators and are dropped, maximal runs of the remaining
characters become the fields. -/
def fieldsFuncAcc (p : Char → Bool) : List Char → List Char → List (List Char)
  | [], acc => if acc.isEmpty then [] else [acc.reverse]
  | c :: cs, acc =>
    if p c then
      if acc.isEmpty then fieldsFuncAcc p cs []
      else acc.reverse :: fieldsFuncAcc p cs []
    else fieldsFuncAcc p cs (c :: acc)

/-- Go `strings.FieldsFunc(s, p)`. -/
def fieldsFunc (p : Char → Bool) (s : List Char) : List (List Char) :=
  fieldsFuncAcc p s []

/-- One step of Go `strings.Title`: map each character, title-casing it
exactly when the previous character was a separator (`prev` starts as a
space). -/
def titleMap (prev : Char) : List Char → List Char
  | [] => []
  | c :: cs => (if isSeparatorGo prev then toTitleGo c else c) :: titleMap c cs

/-- Go `strings.Title(s)`. -/
def goTitle (s : List Char) : List Char := titleMap ' ' s

/-- The `words[0]` rewrite in `ToCamelCase`:
`strings.ToLower(words[0][:1]) + words[0][1:]`, guarded by
`len(words[0]) > 0`. -/
def lowerFirstGo : List Char → List Char
  | [] => []
  | c :: cs => toLowerGo c :: cs

/-- Go `ToCamelCase` from `namefuncs.go`: split on non-letter-non-digit
runes, lower-case the first byte of the first word, `strings.Title` the
remaining words, and join with the empty separator. -/
def ToCamelCase (s : List Char) : List Char :=
  match fieldsFunc notAlnumGo s with
  | [] => []
  | w :: ws => List.flatten (lowerFirstGo w :: ws.map goTitle)

/-- Go `ToPascalCase` from `namefuncs.go`: split on non-letter-non-digit
runes, `strings.Title` every word, and join with the empty separator. -/
def ToPascalCase (s : List Char) : List Char :=
  List.flatten ((fieldsFunc notAlnumGo s).map goTitle)

/-- The loop body of Go `ToSnakeCase`, with `i` the index of the current
rune (the Go loop uses the byte index, which is zero exactly for the
first rune, and only its zero-ness is ever tested). -/
def toSnakeCaseAux : Nat → List Char → List Char
  | _, [] => []
  | i, c :: cs =>
    if isUpperGo c then
      (if i ≠ 0 then ['_'] else []) ++ (toLowerGo c :: toSnakeCaseAux (i + 1) cs)
    else c :: toSnakeCaseAux (i + 1) cs

/-- Go `ToSnakeCase` from `namefuncs.go`. -/
def ToSnakeCase (s : List Char) : List Char := toSnakeCaseAux 0 s

/-- Dropping a prefix by a predicate never lengthens a list. -/
theorem dropWhileLenLe {α : Type} (p : α → Bool) :
    ∀ l : List α, (l.dropWhile p).length ≤ l.length
  | [] => Nat.le_refl _
  | c :: cs => by
    rw [List.dropWhile_cons]
    by_cases h : p c = true
    · simp only [h, if_true]
      exact Nat.le_succ_of_le (dropWhileLenLe p cs)
    · simp [h]

/-- Spec-side decomposition of a string into its maximal runs of letters
and digits. -/
def wordsOf : List Char → List (List Char)
  | [] => []
  | c :: cs =>
    if isAlnumGo c then
      (c :: cs.takeWhile isAlnumGo) :: wordsOf (cs.dropWhile isAlnumGo)
    else wordsOf cs
termination_by s => s.length
decreasing_by
  · simp only [List.length_cons]
    exact Nat.lt_succ_of_le (dropWhileLenLe isAlnumGo cs)
  · simp

/-- Spec-side capitalization of a word: upper-case the first character,
leave the rest unchanged. -/
def capFirst : List Char → List Char
  | [] => []
  | c :: cs => toUpperGo c :: cs

/-- Spec-side lower-casing of a word's first character. -/
def lowFirst : List Char → List Char
  | [] => []
  | c :: cs => toLowerGo c :: cs

/-- The transform claimed for `ToSnakeCase`: every upper-case letter is
replaced by `'_'` followed by its lower-case form, every other character
is copied unchanged. -/
def snakeSpecC2 (s : List Char) : List Char :=
  s.flatMap (fun c => if isUpperGo c then ['_', toLowerGo c] else [c])

/-- Amended transform for `ToSnakeCase`: the first character never
receives a separator (it is only case-folded if upper case); every
later upper-case letter is replaced by `'_'` followed by its lower-case
form; every other character is copied unchanged. -/
def snakeSpecAmended : List Char → List Char
  | [] => []
  | c :: cs => (if isUpperGo c then [toLowerGo c] else [c]) ++ snakeSpecC2 cs

/-! Character-level facts about the ASCII case maps. -/

theorem toNat_ofNat_valid (n : Nat) (h : n < 55296) : (Char.ofNat n).toNat = n := by
  unfold Char.ofNat
  rw [dif_pos (Or.inl h)]
  rfl

theorem isUpperGo_iff (c : Char) : isUpperGo c = true ↔ 65 ≤ c.toNat ∧ c.toNat ≤ 90 := by
  simp only [isUpperGo, Bool.and_eq_true, decide_eq_true_eq]
  exact Iff.rfl

theorem isLowerGo_iff (c : Char) : isLowerGo c = true ↔ 97 ≤ c.toNat ∧ c.toNat ≤ 122 := by
  simp only [isLowerGo, Bool.and_eq_true, decide_eq_true_eq]
  exact Iff.rfl

theorem isNumberGo_iff (c : Char) : isNumberGo c = true ↔ 48 ≤ c.toNat ∧ c.toNat ≤ 57 := by
  simp only [isNumberGo, Bool.and_eq_true, decide_eq_true_eq]
  exact Iff.rfl

theorem toLowerGo_not_upper (c : Char) : isUpperGo (toLowerGo c) = false := by
  unfold toLowerGo
  by_cases h : isUpperGo c = true
  · rw [if_pos h]
    have hb := (isUpperGo_iff c).mp h
    have hv : (Char.ofNat (c.toNat + 32)).toNat = c.toNat + 32 :=
      toNat_ofNat_valid _ (by omega)
    rw [Bool.eq_false_iff]
    intro hcon
    have := (isUpperGo_iff _).mp hcon
    omega
  · rw [if_neg h]
    exact Bool.eq_false_iff.mpr h

theorem toLowerGo_of_not_upper (c : Char) (h : isUpperGo c = false) : toLowerGo c = c := by
  unfold toLowerGo
  rw [if_neg (by rw [h]; exact Bool.false_ne_true)]

theorem lower_not_upper (c : Char) (h : isLowerGo c = true) : isUpperGo c = false := by
  have hl := (isLowerGo_iff c).mp h
  rw [Bool.eq_false_iff]
  intro hcon
  have := (isUpperGo_iff c).mp hcon
  omega

theorem toUpperGo_toNat (c : Char) (h : isLowerGo c = true) :
    (toUpperGo c).toNat = c.toNat - 32 := by
  have hl := (isLowerGo_iff c).mp h
  unfold toUpperGo
  rw [if_pos h]
  exact toNat_ofNat_valid _ (by omega)

theorem upper_toUpperGo (c : Char) (h : isLowerGo c = true) :
    isUpperGo (toUpperGo c) = true := by
  have hl := (isLowerGo_iff c).mp h
  rw [isUpperGo_iff, toUpperGo_toNat c h]
  omega

theorem toLowerGo_toUpperGo (c : Char) (h : isLowerGo c = true) :
    toLowerGo (toUpperGo c) = c := by
  have hl := (isLowerGo_iff c).mp h
  unfold toLowerGo
  rw [if_pos (upper_toUpperGo c h), toUpperGo_toNat c h]
  have hn : c.toNat - 32 + 32 = c.toNat := by omega
  rw [hn, Char.ofNat_toNat]

theorem lower_alnum (c : Char) (h : isLowerGo c = true) : isAlnumGo c = true := by
  have hl := (isLowerGo_iff c).mp h
  simp only [isAlnumGo, isLetterGo, isNumberGo, Bool.or_eq_true, Bool.and_eq_true,
    decide_eq_true_eq]
  left; right
  exact ⟨hl.1, hl.2⟩

theorem alnum_not_sep (c : Char) (h : isAlnumGo c = true) : isSeparatorGo c = false := by
  unfold isSeparatorGo
  unfold isAlnumGo at h
  rcases (Bool.or_eq_true _ _).mp h with h1 | h1
  · simp [h1]
  · simp [h1]

theorem notAlnum_eq (c : Char) : notAlnumGo c = !isAlnumGo c := rfl

/-! Relating the accumulator translation of `strings.FieldsFunc` to the
spec-side maximal-run decomposition `wordsOf`. -/

theorem takeWhileMem {α : Type} (p : α → Bool) :
    ∀ l : List α, ∀ a ∈ l.takeWhile p, p a = true
  | [] => by simp
  | c :: cs => by
    rw [List.takeWhile_cons]
    by_cases h : p c = true
    · simp only [h, if_true]
      intro a ha
      rcases List.mem_cons.mp ha with rfl | ha
      · exact h
      · exact takeWhileMem p cs a ha
    · simp [h]

theorem fieldsFuncAcc_acc (s : List Char) :
    ∀ acc : List Char, acc ≠ [] →
      fieldsFuncAcc notAlnumGo s acc =
        (acc.reverse ++ s.takeWhile isAlnumGo) ::
          fieldsFuncAcc notAlnumGo (s.dropWhile isAlnumGo) [] := by
  induction s with
  | nil =>
    intro acc hacc
    simp [fieldsFuncAcc, List.isEmpty_iff, hacc]
  | cons c cs ih =>
    intro acc hacc
    by_cases h : isAlnumGo c = true
    · have hp : notAlnumGo c = false := by rw [notAlnum_eq, h]; rfl
      rw [List.takeWhile_cons, List.dropWhile_cons]
      simp only [h, if_true]
      show fieldsFuncAcc notAlnumGo (c :: cs) acc = _
      simp only [fieldsFuncAcc, hp, Bool.false_eq_true, if_false]
      rw [ih (c :: acc) (List.cons_ne_nil c acc)]
      simp [List.append_assoc]
    · have hp : notAlnumGo c = true := by
        rw [notAlnum_eq, Bool.eq_false_iff.mpr h]
        rfl
      rw [List.takeWhile_cons, List.dropWhile_cons]
      simp only [h, Bool.false_eq_true, if_false]
      show fieldsFuncAcc notAlnumGo (c :: cs) acc = _
      simp only [fieldsFuncAcc, hp, if_true]
      simp [List.isEmpty_iff, hacc]

theorem fieldsFunc_eq_wordsOf : ∀ s : List Char, fieldsFunc notAlnumGo s = wordsOf s
  | [] => by simp [fieldsFunc, fieldsFuncAcc, wordsOf]
  | c :: cs => by
    by_cases h : isAlnumGo c = true
    · have hp : notAlnumGo c = false := by rw [notAlnum_eq, h]; rfl
      have hrec := fieldsFunc_eq_wordsOf (cs.dropWhile isAlnumGo)
      unfold fieldsFunc at hrec ⊢
      simp only [wordsOf, h, if_true]
      simp only [fieldsFuncAcc, hp, Bool.false_eq_true, if_false]
      rw [fieldsFuncAcc_acc cs [c] (List.cons_ne_nil c [])]
      rw [hrec]
      simp
    · have hp : notAlnumGo c = true := by
        rw [notAlnum_eq, Bool.eq_false_iff.mpr h]
        rfl
      have hrec := fieldsFunc_eq_wordsOf cs
      unfold fieldsFunc at hrec ⊢
      simp only [wordsOf, h, Bool.false_eq_true, if_false]
      simp only [fieldsFuncAcc, hp, if_true, List.isEmpty_nil]
      exact hrec
termination_by s => s.length
decreasing_by
  · simp only [List.length_cons]
    exact Nat.lt_succ_of_le (dropWhileLenLe isAlnumGo cs)
  · simp

theorem wordsOf_sound : ∀ s : List Char, ∀ w ∈ wordsOf s,
    w ≠ [] ∧ ∀ c ∈ w, isAlnumGo c = true
  | [] => by simp [wordsOf]
  | c :: cs => by
    intro w hw
    by_cases h : isAlnumGo c = true
    · simp only [wordsOf, h, if_true] at hw
      rcases List.mem_cons.mp hw with rfl | hw
      · refine ⟨List.cons_ne_nil _ _, ?_⟩
        intro d hd
        rcases List.mem_cons.mp hd with rfl | hd
        · exact h
        · exact takeWhileMem isAlnumGo cs d hd
      · exact wordsOf_sound (cs.dropWhile isAlnumGo) w hw
    · simp only [wordsOf, h, Bool.false_eq_true, if_false] at hw
      exact wordsOf_sound cs w hw
termination_by s => s.length
decreasing_by
  · simp only [List.length_cons]
    exact Nat.lt_succ_of_le (dropWhileLenLe isAlnumGo cs)
  · simp

theorem titleMap_id (cs : List Char) : ∀ prev : Char, isSeparatorGo prev = false →
    (∀ c ∈ cs, isAlnumGo c = true) → titleMap prev cs = cs := by
  induction cs with
  | nil => intro prev _ _; rfl
  | cons c cs ih =>
    intro prev hprev hall
    show (if isSeparatorGo prev then toTitleGo c else c) :: titleMap c cs = c :: cs
    rw [if_neg (by rw [hprev]; exact Bool.false_ne_true)]
    congr 1
    exact ih c (alnum_not_sep c (hall c (List.mem_cons_self c cs)))
      (fun d hd => hall d (List.mem_cons_of_mem c hd))

theorem goTitle_eq_capFirst (w : List Char) (hne : w ≠ [])
    (hall : ∀ c ∈ w, isAlnumGo c = true) : goTitle w = capFirst w := by
  cases w with
  | nil => exact absurd rfl hne
  | cons c cs =>
    show (if isSeparatorGo ' ' then toTitleGo c else c) :: titleMap c cs = toUpperGo c :: cs
    rw [if_pos (by decide)]
    show toUpperGo c :: titleMap c cs = toUpperGo c :: cs
    congr 1
    exact titleMap_id cs c (alnum_not_sep c (hall c (List.mem_cons_self c cs)))
      (fun d hd => hall d (List.mem_cons_of_mem c hd))

theorem lowerFirstGo_eq_lowFirst : ∀ w : List Char, lowerFirstGo w = lowFirst w := by
  intro w
  cases w <;> rfl

/-- Whether the first character of a string (if any) is not upper case. -/
def headNotUpper (l : List Char) : Bool :=
  l.head?.all (fun c => !isUpperGo c)

/-! ## Claim theorems for the casing functions -/

/-- C2 (counterexample): `ToSnakeCase` does not replace an upper-case
letter in the first position by a separator plus its lower-case form:
on input `"A"` it yields `"a"`, not `"_a"` as the claimed transform
requires, so the first upper-case letter is not preceded by a separator
in the output. -/
theorem toSnakeCase_c2_counterexample :
    ¬ (ToSnakeCase ['A'] = snakeSpecC2 ['A']) := by decide

theorem toSnakeCaseAux_ne_zero : ∀ (cs : List Char) (i : Nat), i ≠ 0 →
    toSnakeCaseAux i cs = snakeSpecC2 cs
  | [], i, h => by simp [toSnakeCaseAux, snakeSpecC2]
  | c :: cs, i, h => by
    simp only [toSnakeCaseAux, snakeSpecC2, List.flatMap_cons]
    by_cases hc : isUpperGo c = true
    · rw [if_pos hc, if_pos hc, if_pos h]
      rw [toSnakeCaseAux_ne_zero cs (i + 1) (Nat.succ_ne_zero i)]
      rfl
    · rw [if_neg hc, if_neg hc]
      rw [toSnakeCaseAux_ne_zero cs (i + 1) (Nat.succ_ne_zero i)]
      rfl

/-- C2 (amended): `ToSnakeCase` replaces every upper-case letter other
than a first character by `'_'` followed by its lower-case form, merely
lower-cases an upper-case first character, and copies every other
character unchanged. -/
theorem toSnakeCase_amended (s : List Char) : ToSnakeCase s = snakeSpecAmended s := by
  cases s with
  | nil => rfl
  | cons c cs =>
    show toSnakeCaseAux 0 (c :: cs) = _
    simp only [toSnakeCaseAux, snakeSpecAmended]
    by_cases hc : isUpperGo c = true
    · rw [if_pos hc, if_pos hc, if_neg (by simp)]
      rw [toSnakeCaseAux_ne_zero cs 1 one_ne_zero]
      rfl
    · rw [if_neg hc, if_neg hc]
      rw [toSnakeCaseAux_ne_zero cs 1 one_ne_zero]
      rfl

/-- C4: `ToPascalCase` splits its input into the maximal runs of letters
and digits and joins the words after upper-casing the first character of
every word (including the first), leaving all other characters
unchanged. -/
theorem toPascalCase_spec (s : List Char) :
    ToPascalCase s = List.flatten ((wordsOf s).map capFirst) := by
  unfold ToPascalCase
  rw [show fieldsFunc notAlnumGo s = wordsOf s from fieldsFunc_eq_wordsOf s]
  congr 1
  apply List.map_congr_left
  intro w hw
  obtain ⟨hne, hall⟩ := wordsOf_sound s w hw
  exact goTitle_eq_capFirst w hne hall

theorem fieldsFuncAcc_all_sep (s : List Char) (hall : ∀ c ∈ s, notAlnumGo c = true) :
    fieldsFuncAcc notAlnumGo s [] = [] := by
  induction s with
  | nil => rfl
  | cons c cs ih =>
    simp only [fieldsFuncAcc, hall c (List.mem_cons_self c cs), if_true, List.isEmpty_nil]
    exact ih (fun d hd => hall d (List.mem_cons_of_mem c hd))

/-- C10: on an input with no letters and no digits, both `ToCamelCase`
and `ToPascalCase` return the empty string. -/
theorem casing_empty_when_no_alnum (s : List Char)
    (h : ∀ c ∈ s, isLetterGo c = false ∧ isNumberGo c = false) :
    ToCamelCase s = [] ∧ ToPascalCase s = [] := by
  have hall : ∀ c ∈ s, notAlnumGo c = true := by
    intro c hc
    rw [notAlnum_eq]
    unfold isAlnumGo
    rw [(h c hc).1, (h c hc).2]
    rfl
  have hf : fieldsFunc notAlnumGo s = [] := fieldsFuncAcc_all_sep s hall
  constructor
  · unfold ToCamelCase
    rw [hf]
  · unfold ToPascalCase
    rw [hf]
    rfl

/-- Witness for C10 at the concrete separator-only input `"_-"`. -/
theorem casing_empty_when_no_alnum_witness :
    ToCamelCase ['_', '-'] = [] ∧ ToPascalCase ['_', '-'] = [] :=
  casing_empty_when_no_alnum ['_', '-'] (by decide)

/-- State-passing form of `ToCamelCase` over an arbitrary ambient state
`σ`: the Go function reads and writes only its argument and locals, so
its state-passing translation returns the ambient state untouched. -/
def toCamelCaseProc {σ : Type} (world : σ) (s : List Char) : List Char × σ :=
  (ToCamelCase s, world)

/-- State-passing form of `ToPascalCase` over an ambient state. -/
def toPascalCaseProc {σ : Type} (world : σ) (s : List Char) : List Char × σ :=
  (ToPascalCase s, world)

/-- State-passing form of `ToSnakeCase` over an ambient state. -/
def toSnakeCaseProc {σ : Type} (world : σ) (s : List Char) : List Char × σ :=
  (ToSnakeCase s, world)

/-- C8: each casing function is a pure, deterministic function of its
input: two invocations from arbitrary ambient states yield the same
output, and the ambient state is unchanged by the call. -/
theorem casing_pure (σ : Type) (w w' : σ) (s : List Char) :
    ((toCamelCaseProc w s).1 = (toCamelCaseProc w' s).1 ∧ (toCamelCaseProc w s).2 = w) ∧
    ((toPascalCaseProc w s).1 = (toPascalCaseProc w' s).1 ∧ (toPascalCaseProc w s).2 = w) ∧
    ((toSnakeCaseProc w s).1 = (toSnakeCaseProc w' s).1 ∧ (toSnakeCaseProc w s).2 = w) :=
  ⟨⟨rfl, rfl⟩, ⟨rfl, rfl⟩, ⟨rfl, rfl⟩⟩

theorem wordsOf_ne_nil_of_any : ∀ s : List Char, s.any isAlnumGo = true → wordsOf s ≠ []
  | [], h => by simp at h
  | c :: cs, h => by
    by_cases hc : isAlnumGo c = true
    · simp only [wordsOf, hc, if_true]
      exact List.cons_ne_nil _ _
    · simp only [wordsOf, hc, Bool.false_eq_true, if_false]
      apply wordsOf_ne_nil_of_any cs
      simp only [List.any_cons, hc, Bool.false_or] at h
      exact h

/-- C5: on an input with at least one letter or digit, `ToCamelCase`
lower-cases the first character of the first word, upper-cases the first
character of every later word, joins the words with no separator, and
its output never starts with an upper-case letter. -/
theorem toCamelCase_spec (s : List Char) (h : s.any isAlnumGo = true) :
    wordsOf s ≠ [] ∧
    ToCamelCase s =
      List.flatten (lowFirst ((wordsOf s).headD []) :: ((wordsOf s).tail).map capFirst) ∧
    headNotUpper (ToCamelCase s) = true := by
  have hne := wordsOf_ne_nil_of_any s h
  obtain ⟨w, ws, hws⟩ := List.exists_cons_of_ne_nil hne
  obtain ⟨hwne, hwall⟩ := wordsOf_sound s w (by rw [hws]; exact List.mem_cons_self _ _)
  have hcam : ToCamelCase s = List.flatten (lowFirst w :: ws.map capFirst) := by
    unfold ToCamelCase
    rw [show fieldsFunc notAlnumGo s = wordsOf s from fieldsFunc_eq_wordsOf s, hws]
    show List.flatten (lowerFirstGo w :: ws.map goTitle) = _
    have hmap : ws.map goTitle = ws.map capFirst := by
      apply List.map_congr_left
      intro u hu
      obtain ⟨hne', hall'⟩ := wordsOf_sound s u (by rw [hws]; exact List.mem_cons_of_mem w hu)
      exact goTitle_eq_capFirst u hne' hall'
    rw [lowerFirstGo_eq_lowFirst w, hmap]
  refine ⟨hne, by rw [hcam, hws]; simp, ?_⟩
  obtain ⟨c, w', rfl⟩ := List.exists_cons_of_ne_nil hwne
  rw [hcam]
  show headNotUpper (List.flatten (lowFirst (c :: w') :: ws.map capFirst)) = true
  simp only [lowFirst, List.flatten_cons, List.cons_append, headNotUpper, List.head?_cons]
  rw [show ((some (toLowerGo c)).all fun c => !isUpperGo c) = !isUpperGo (toLowerGo c) from rfl]
  rw [toLowerGo_not_upper]
  rfl

/-- Witness for C5 at the concrete input `"a_b"`. -/
theorem toCamelCase_spec_witness :
    wordsOf ['a', '_', 'b'] ≠ [] ∧
    ToCamelCase ['a', '_', 'b'] =
      List.flatten (lowFirst ((wordsOf ['a', '_', 'b']).headD []) ::
        ((wordsOf ['a', '_', 'b']).tail).map capFirst) ∧
    headNotUpper (ToCamelCase ['a', '_', 'b']) = true :=
  toCamelCase_spec ['a', '_', 'b'] (by decide)

/-! ## Round trip of `ToSnakeCase` after `ToCamelCase` -/

/-- Spec-side shape of a snake-case identifier: non-empty words joined
by single `'_'` separators. -/
def underscoreJoined : List (List Char) → List Char
  | [] => []
  | [w] => w
  | w :: ws => w ++ '_' :: underscoreJoined ws

theorem underscoreJoined_eq : ∀ (w : List Char) (ws : List (List Char)),
    underscoreJoined (w :: ws) = w ++ (ws.map (fun u => '_' :: u)).flatten
  | _, [] => by simp [underscoreJoined]
  | w, u :: ws => by
    show w ++ '_' :: underscoreJoined (u :: ws) = _
    rw [underscoreJoined_eq u ws]
    simp

theorem takeWhileAllTrue {α : Type} (p : α → Bool) :
    ∀ l : List α, (∀ a ∈ l, p a = true) → l.takeWhile p = l
  | [], _ => rfl
  | c :: cs, h => by
    rw [List.takeWhile_cons, if_pos (h c (List.mem_cons_self c cs))]
    rw [takeWhileAllTrue p cs (fun a ha => h a (List.mem_cons_of_mem c ha))]

theorem dropWhileAllTrue {α : Type} (p : α → Bool) :
    ∀ l : List α, (∀ a ∈ l, p a = true) → l.dropWhile p = []
  | [], _ => rfl
  | c :: cs, h => by
    rw [List.dropWhile_cons, if_pos (h c (List.mem_cons_self c cs))]
    exact dropWhileAllTrue p cs (fun a ha => h a (List.mem_cons_of_mem c ha))

theorem takeWhileAppend {α : Type} (p : α → Bool) :
    ∀ (l r : List α), (∀ a ∈ l, p a = true) →
      (l ++ r).takeWhile p = l ++ r.takeWhile p
  | [], r, _ => rfl
  | c :: cs, r, h => by
    rw [List.cons_append, List.takeWhile_cons, if_pos (h c (List.mem_cons_self c cs))]
    rw [takeWhileAppend p cs r (fun a ha => h a (List.mem_cons_of_mem c ha))]
    rfl

theorem dropWhileAppend {α : Type} (p : α → Bool) :
    ∀ (l r : List α), (∀ a ∈ l, p a = true) →
      (l ++ r).dropWhile p = r.dropWhile p
  | [], r, _ => rfl
  | c :: cs, r, h => by
    rw [List.cons_append, List.dropWhile_cons, if_pos (h c (List.mem_cons_self c cs))]
    exact dropWhileAppend p cs r (fun a ha => h a (List.mem_cons_of_mem c ha))

theorem underscore_not_alnum : isAlnumGo '_' = false := by decide

theorem wordsOf_single (w : List Char) (hne : w ≠ [])
    (hall : ∀ c ∈ w, isAlnumGo c = true) : wordsOf w = [w] := by
  obtain ⟨c, cs, rfl⟩ := List.exists_cons_of_ne_nil hne
  simp only [wordsOf, hall c (List.mem_cons_self c cs), if_true]
  rw [takeWhileAllTrue isAlnumGo cs (fun a ha => hall a (List.mem_cons_of_mem c ha))]
  rw [dropWhileAllTrue isAlnumGo cs (fun a ha => hall a (List.mem_cons_of_mem c ha))]
  simp [wordsOf]

theorem wordsOf_word_sep (w t : List Char) (hne : w ≠ [])
    (hall : ∀ c ∈ w, isAlnumGo c = true) :
    wordsOf (w ++ '_' :: t) = w :: wordsOf t := by
  obtain ⟨c, cs, rfl⟩ := List.exists_cons_of_ne_nil hne
  rw [List.cons_append]
  simp only [wordsOf, hall c (List.mem_cons_self c cs), if_true]
  rw [takeWhileAppend isAlnumGo cs ('_' :: t)
    (fun a ha => hall a (List.mem_cons_of_mem c ha))]
  rw [dropWhileAppend isAlnumGo cs ('_' :: t)
    (fun a ha => hall a (List.mem_cons_of_mem c ha))]
  rw [List.takeWhile_cons, List.dropWhile_cons]
  simp only [underscore_not_alnum, Bool.false_eq_true, if_false]
  show (c :: (cs ++ [])) :: wordsOf ('_' :: t) = (c :: cs) :: wordsOf t
  rw [List.append_nil]
  congr 1
  simp only [wordsOf, underscore_not_alnum, Bool.false_eq_true, if_false]

theorem wordsOf_underscoreJoined : ∀ ws : List (List Char),
    (∀ w ∈ ws, w ≠ [] ∧ ∀ c ∈ w, isLowerGo c = true) →
    wordsOf (underscoreJoined ws) = ws
  | [], _ => by simp [underscoreJoined, wordsOf]
  | [w], h => by
    obtain ⟨hne, hlow⟩ := h w (List.mem_cons_self w [])
    show wordsOf w = [w]
    exact wordsOf_single w hne (fun c hc => lower_alnum c (hlow c hc))
  | w :: u :: ws, h => by
    obtain ⟨hne, hlow⟩ := h w (List.mem_cons_self _ _)
    show wordsOf (w ++ '_' :: underscoreJoined (u :: ws)) = _
    rw [wordsOf_word_sep w _ hne (fun c hc => lower_alnum c (hlow c hc))]
    rw [wordsOf_underscoreJoined (u :: ws)
      (fun v hv => h v (List.mem_cons_of_mem w hv))]

theorem toSnakeCaseAux_no_upper :
    ∀ (l : List Char) (i : Nat) (t : List Char), (∀ c ∈ l, isUpperGo c = false) →
      toSnakeCaseAux i (l ++ t) = l ++ toSnakeCaseAux (i + l.length) t
  | [], i, t, _ => by simp
  | c :: cs, i, t, h => by
    rw [List.cons_append]
    show toSnakeCaseAux i (c :: (cs ++ t)) = _
    simp only [toSnakeCaseAux, h c (List.mem_cons_self c cs), Bool.false_eq_true, if_false]
    rw [toSnakeCaseAux_no_upper cs (i + 1) t (fun a ha => h a (List.mem_cons_of_mem c ha))]
    rw [List.cons_append]
    have harith : i + 1 + cs.length = i + (c :: cs).length := by
      simp only [List.length_cons]
      omega
    rw [harith]

theorem toSnakeCaseAux_capWords : ∀ (ws : List (List Char)) (i : Nat), i ≠ 0 →
    (∀ w ∈ ws, w ≠ [] ∧ ∀ c ∈ w, isLowerGo c = true) →
    toSnakeCaseAux i ((ws.map capFirst).flatten) = (ws.map (fun u => '_' :: u)).flatten
  | [], i, _, _ => by simp [toSnakeCaseAux]
  | w :: ws, i, hi, h => by
    obtain ⟨hne, hlow⟩ := h w (List.mem_cons_self w ws)
    obtain ⟨c, w', rfl⟩ := List.exists_cons_of_ne_nil hne
    have hc : isLowerGo c = true := hlow c (List.mem_cons_self c w')
    simp only [List.map_cons, List.flatten_cons, capFirst, List.cons_append]
    show toSnakeCaseAux i (toUpperGo c :: (w' ++ (ws.map capFirst).flatten)) = _
    simp only [toSnakeCaseAux, upper_toUpperGo c hc, if_true, if_pos hi]
    rw [toLowerGo_toUpperGo c hc]
    rw [toSnakeCaseAux_no_upper w' (i + 1) _
      (fun a ha => lower_not_upper a (hlow a (List.mem_cons_of_mem c ha)))]
    rw [toSnakeCaseAux_capWords ws (i + 1 + w'.length) (by omega)
      (fun v hv => h v (List.mem_cons_of_mem _ hv))]
    rfl

/-- C9: for a string made of one or more non-empty lower-case ASCII
words joined by single `'_'` separators, `ToSnakeCase` undoes
`ToCamelCase`. -/
theorem snake_camel_roundtrip (ws : List (List Char)) (hne : ws ≠ [])
    (h : ∀ w ∈ ws, w ≠ [] ∧ ∀ c ∈ w, isLowerGo c = true) :
    ToSnakeCase (ToCamelCase (underscoreJoined ws)) = underscoreJoined ws := by
  obtain ⟨w, ws', rfl⟩ := List.exists_cons_of_ne_nil hne
  obtain ⟨hwne, hwlow⟩ := h w (List.mem_cons_self _ _)
  have hwords : wordsOf (underscoreJoined (w :: ws')) = w :: ws' :=
    wordsOf_underscoreJoined _ h
  have hcam : ToCamelCase (underscoreJoined (w :: ws')) =
      w ++ (ws'.map capFirst).flatten := by
    unfold ToCamelCase
    rw [show fieldsFunc notAlnumGo (underscoreJoined (w :: ws')) =
      wordsOf (underscoreJoined (w :: ws')) from fieldsFunc_eq_wordsOf _, hwords]
    show List.flatten (lowerFirstGo w :: ws'.map goTitle) = _
    have hl : lowerFirstGo w = w := by
      obtain ⟨c, cs, rfl⟩ := List.exists_cons_of_ne_nil hwne
      show toLowerGo c :: cs = c :: cs
      rw [toLowerGo_of_not_upper c
        (lower_not_upper c (hwlow c (List.mem_cons_self c cs)))]
    have hmap : ws'.map goTitle = ws'.map capFirst := by
      apply List.map_congr_left
      intro u hu
      obtain ⟨hune, hulow⟩ := h u (List.mem_cons_of_mem w hu)
      exact goTitle_eq_capFirst u hune (fun c hc => lower_alnum c (hulow c hc))
    rw [hl, hmap, List.flatten_cons]
  rw [hcam]
  unfold ToSnakeCase
  rw [toSnakeCaseAux_no_upper w 0 _
    (fun c hc => lower_not_upper c (hwlow c hc))]
  rw [toSnakeCaseAux_capWords ws' (0 + w.length)
    (by obtain ⟨c, cs, rfl⟩ := List.exists_cons_of_ne_nil hwne; simp)
    (fun v hv => h v (List.mem_cons_of_mem w hv))]
  rw [underscoreJoined_eq w ws']

/-- Witness for C9 at the concrete word list `["a", "b"]` (that is, the
input string `"a_b"`). -/
theorem snake_camel_roundtrip_witness :
    ToSnakeCase (ToCamelCase (underscoreJoined [['a'], ['b']])) =
      underscoreJoined [['a'], ['b']] :=
  snake_camel_roundtrip [['a'], ['b']] (by decide) (by decide)

/-! ## RawFields and the wire-format scan

`RawFields.IsValid` in the source calls `wire.ConsumeField`, whose code
is not part of this repository.  The consumption step is therefore
modelled from the spec: each record is a (field-number, wire-type,
payload) triple in a self-describing tag+payload encoding — a base-128
varint tag whose value encodes a positive field number (`tag / 8`) and a
wire type (`tag % 8`), followed by a payload of that wire type (varint,
eight bytes, varint-length-delimited bytes, or four bytes).  Bytes are
modelled as natural numbers (values below 256 in real runs; a value of
128 or above acts as a varint continuation byte). -/

/-- Raw bytes of an ordered sequence of wire-format fields. -/
abbrev RawFields : Type := List Nat

/-- Modelled from the spec: consume one base-128 varint from the front
of a byte run, returning its value and the number of bytes consumed;
fail if the run ends before a terminal byte (one below 128). -/
def consumeVarint : List Nat → Option (Nat × Nat)
  | [] => none
  | b :: bs =>
    if b < 128 then some (b, 1)
    else
      match consumeVarint bs with
      | none => none
      | some (v, n) => some (b % 128 + 128 * v, n + 1)

/-- Modelled from the spec: consume the payload of a record for a given
wire type — 0 a varint, 1 eight bytes, 2 a varint length followed by
that many bytes, 5 four bytes; every other wire type fails.  Returns
the number of payload bytes consumed. -/
def consumePayload (wty : Nat) (bs : List Nat) : Option Nat :=
  if wty = 0 then
    match consumeVarint bs with
    | none => none
    | some (_, n) => some n
  else if wty = 1 then
    if 8 ≤ bs.length then some 8 else none
  else if wty = 2 then
    match consumeVarint bs with
    | none => none
    | some (len, n) => if len ≤ (bs.drop n).length then some (n + len) else none
  else if wty = 5 then
    if 4 ≤ bs.length then some 4 else none
  else none

/-- Modelled from the spec: `wire.ConsumeField` — parse one record's
varint tag, reject a zero field number, then consume the payload of the
tag's wire type; return the total number of bytes consumed, or fail
when no record boundary can be determined. -/
def consumeField (bs : List Nat) : Option Nat :=
  match consumeVarint bs with
  | none => none
  | some (tag, n) =>
    if tag / 8 = 0 then none
    else
      match consumePayload (tag % 8) (bs.drop n) with
      | none => none
      | some m => some (n + m)

theorem consumeVarint_bounds : ∀ (bs : List Nat) (v n : Nat),
    consumeVarint bs = some (v, n) → 1 ≤ n ∧ n ≤ bs.length
  | [], v, n, h => by simp [consumeVarint] at h
  | b :: rest, v, n, h => by
    by_cases hb : b < 128
    · rw [consumeVarint, if_pos hb] at h
      have h2 : 1 = n := congrArg (fun o => (o.getD (0, 0)).2) h
      simp only [List.length_cons]
      omega
    · rw [consumeVarint, if_neg hb] at h
      cases hr : consumeVarint rest with
      | none => rw [hr] at h; exact absurd h (by simp)
      | some p =>
        obtain ⟨v', n'⟩ := p
        rw [hr] at h
        have h2 : n' + 1 = n := congrArg (fun o => (o.getD (0, 0)).2) h
        have hih := consumeVarint_bounds rest v' n' hr
        simp only [List.length_cons]
        omega

theorem consumePayload_le (wty : Nat) (bs : List Nat) (m : Nat)
    (h : consumePayload wty bs = some m) : 1 ≤ m ∧ m ≤ bs.length := by
  unfold consumePayload at h
  by_cases h0 : wty = 0
  · rw [if_pos h0] at h
    cases hv : consumeVarint bs with
    | none => rw [hv] at h; exact absurd h (by simp)
    | some p =>
      obtain ⟨v, n⟩ := p
      rw [hv] at h
      have hm : n = m := congrArg (fun o => o.getD 0) h
      obtain ⟨h1, h2⟩ := consumeVarint_bounds bs v n hv
      omega
  · rw [if_neg h0] at h
    by_cases h1 : wty = 1
    · rw [if_pos h1] at h
      by_cases hlen : 8 ≤ bs.length
      · rw [if_pos hlen] at h
        have hm : 8 = m := congrArg (fun o => o.getD 0) h
        omega
      · rw [if_neg hlen] at h; exact absurd h (by simp)
    · rw [if_neg h1] at h
      by_cases h2 : wty = 2
      · rw [if_pos h2] at h
        cases hv : consumeVarint bs with
        | none => rw [hv] at h; exact absurd h (by simp)
        | some p =>
          obtain ⟨len, n⟩ := p
          rw [hv] at h
          have h' : (if len ≤ (bs.drop n).length then some (n + len) else none) =
              some m := h
          by_cases hq : len ≤ (bs.drop n).length
          · rw [if_pos hq] at h'
            have hm : n + len = m := congrArg (fun o => o.getD 0) h'
            obtain ⟨hn1, hn2⟩ := consumeVarint_bounds bs len n hv
            rw [List.length_drop] at hq
            omega
          · rw [if_neg hq] at h'; exact absurd h' (by simp)
      · rw [if_neg h2] at h
        by_cases h5 : wty = 5
        · rw [if_pos h5] at h
          by_cases hlen : 4 ≤ bs.length
          · rw [if_pos hlen] at h
            have hm : 4 = m := congrArg (fun o => o.getD 0) h
            omega
          · rw [if_neg hlen] at h; exact absurd h (by simp)
        · rw [if_neg h5] at h; exact absurd h (by simp)

theorem consumeField_pos (bs : List Nat) (n : Nat) (h : consumeField bs = some n) :
    1 ≤ n ∧ n ≤ bs.length := by
  unfold consumeField at h
  cases hv : consumeVarint bs with
  | none => rw [hv] at h; exact absurd h (by simp)
  | some p =>
    obtain ⟨tag, nv⟩ := p
    rw [hv] at h
    have h' : (if tag / 8 = 0 then none
        else match consumePayload (tag % 8) (bs.drop nv) with
          | none => none
          | some m => some (nv + m)) = some n := h
    by_cases hz : tag / 8 = 0
    · rw [if_pos hz] at h'; exact absurd h' (by simp)
    · rw [if_neg hz] at h'
      cases hp : consumePayload (tag % 8) (bs.drop nv) with
      | none => rw [hp] at h'; exact absurd h' (by simp)
      | some m =>
        rw [hp] at h'
        have hnm : nv + m = n := congrArg (fun o => o.getD 0) h'
        obtain ⟨ha, hb⟩ := consumeVarint_bounds bs tag nv hv
        obtain ⟨hc, hd⟩ := consumePayload_le (tag % 8) (bs.drop nv) m hp
        rw [List.length_drop] at hd
        omega

/-- Go `RawFields.IsValid` from the protoreflect layer: repeatedly
consume one field record and advance past it; fail closed when a
consumption step cannot determine a record boundary; an exhausted run
is valid. -/
def RawFields.IsValid (b : RawFields) : Bool :=
  if hb : b = [] then true
  else
    match hc : consumeField b with
    | none => false
    | some n => RawFields.IsValid (b.drop n)
termination_by b.length
decreasing_by
  obtain ⟨h1, h2⟩ := consumeField_pos b n hc
  have hlen : b.length ≠ 0 := fun h0 => hb (List.eq_nil_of_length_eq_zero h0)
  simp only [List.length_drop]
  omega

theorem isValid_nil : RawFields.IsValid ([] : RawFields) = true := by
  rw [RawFields.IsValid]
  rfl

theorem isValid_fail (bs : RawFields) (hne : bs ≠ []) (hc : consumeField bs = none) :
    RawFields.IsValid bs = false := by
  rw [RawFields.IsValid, dif_neg hne]
  split
  · rfl
  · rename_i n heq
    rw [hc] at heq
    exact absurd heq (by simp)

theorem isValid_step (bs : RawFields) (n : Nat) (hne : bs ≠ [])
    (hc : consumeField bs = some n) :
    RawFields.IsValid bs = RawFields.IsValid (bs.drop n) := by
  rw [RawFields.IsValid, dif_neg hne]
  split
  · rename_i heq
    rw [hc] at heq
    exact absurd heq (by simp)
  · rename_i m heq
    rw [hc] at heq
    have : m = n := by
      have := congrArg (fun o => o.getD 0) heq
      exact this.symm
    rw [this]

/-- The `IsValid` loop with an explicit iteration budget: `none` means
the budget was exhausted before the scan reached a verdict. -/
def isValidLoop : Nat → List Nat → Option Bool
  | 0, _ => none
  | fuel + 1, bs =>
    if bs = [] then some true
    else
      match consumeField bs with
      | none => some false
      | some n => isValidLoop fuel (bs.drop n)

theorem isValidLoop_spec : ∀ (fuel : Nat) (bs : List Nat), bs.length < fuel →
    isValidLoop fuel bs = some (RawFields.IsValid bs)
  | 0, bs, h => absurd h (Nat.not_lt_zero _)
  | fuel + 1, bs, h => by
    by_cases hb : bs = []
    · subst hb
      rw [isValidLoop, if_pos rfl, isValid_nil]
    · rw [isValidLoop, if_neg hb]
      cases hc : consumeField bs with
      | none => rw [isValid_fail bs hb hc]
      | some n =>
        rw [isValid_step bs n hb hc]
        obtain ⟨h1, h2⟩ := consumeField_pos bs n hc
        have hlt : (bs.drop n).length < fuel := by
          rw [List.length_drop]
          have : bs.length ≠ 0 := fun h0 => hb (List.eq_nil_of_length_eq_zero h0)
          omega
        exact isValidLoop_spec fuel (bs.drop n) hlt

/-- C3: the record-consuming scan always terminates: on any byte run it
reaches the verdict of `RawFields.IsValid` within `length + 1` loop
iterations, because every successful consumption step removes at least
one byte. -/
theorem isValid_terminates (bs : List Nat) :
    isValidLoop (bs.length + 1) bs = some (RawFields.IsValid bs) :=
  isValidLoop_spec (bs.length + 1) bs (Nat.lt_succ_self _)

/-- State-passing form of the `IsValid` loop, with the receiver's
backing array as the threaded state: the Go loop `b = b[n:]` only
re-slices a local view (`off` is the view's start), so the translation
threads the array through unchanged and returns it as the post-state. -/
def isValidFrom (arr : List Nat) (off : Nat) : Bool × List Nat :=
  if arr.length - off = 0 then (true, arr)
  else
    match hc : consumeField (arr.drop off) with
    | none => (false, arr)
    | some n => isValidFrom arr (off + n)
termination_by arr.length - off
decreasing_by
  obtain ⟨h1, h2⟩ := consumeField_pos _ _ hc
  rw [List.length_drop] at h2
  omega

theorem isValidFrom_spec : ∀ (arr : List Nat) (off : Nat),
    (isValidFrom arr off).2 = arr ∧
    (isValidFrom arr off).1 = RawFields.IsValid (arr.drop off)
  | arr, off => by
    by_cases h : arr.length - off = 0
    · rw [isValidFrom, if_pos h]
      have hdrop : arr.drop off = [] := by
        apply List.eq_nil_of_length_eq_zero
        rw [List.length_drop]
        exact h
      rw [hdrop, isValid_nil]
      exact ⟨rfl, rfl⟩
    · rw [isValidFrom, if_neg h]
      have hne : arr.drop off ≠ [] := by
        intro hnil
        apply h
        have := congrArg List.length hnil
        rwa [List.length_drop] at this
      split
      · rename_i hc
        rw [isValid_fail _ hne hc]
        exact ⟨rfl, rfl⟩
      · rename_i n hc
        obtain ⟨h1, h2⟩ := consumeField_pos _ _ hc
        rw [List.length_drop] at h2
        obtain ⟨ih2, ih1⟩ := isValidFrom_spec arr (off + n)
        refine ⟨ih2, ?_⟩
        rw [ih1, isValid_step _ n hne hc, List.drop_drop]
  termination_by arr off => arr.length - off
  decreasing_by omega

/-- C7: `IsValid` never mutates its receiver: in the state-passing form
the byte run after the call equals the byte run before it, and the
verdict returned is the pure scan's. -/
theorem isValid_no_mutation (arr : List Nat) :
    (isValidFrom arr 0).2 = arr ∧ (isValidFrom arr 0).1 = RawFields.IsValid arr := by
  have h := isValidFrom_spec arr 0
  rwa [List.drop_zero] at h

/-! Well-formed wire records, modelled from the spec, and the
characterization of `RawFields.IsValid`. -/

/-- Modelled from the spec: the bytes of one complete varint — zero or
more continuation bytes (128 or above) ending with one terminal byte
(below 128). -/
def isVarintBytes : List Nat → Bool
  | [] => false
  | [b] => b < 128
  | b :: bs => 128 ≤ b && isVarintBytes bs

/-- Modelled from the spec: the value denoted by a varint byte run
(little-endian base-128 over each byte's low seven bits). -/
def varintValue : List Nat → Nat
  | [] => 0
  | b :: bs => b % 128 + 128 * varintValue bs

/-- Modelled from the spec: a well-formed payload for a wire type —
0 a varint, 1 eight bytes, 2 a varint length prefix denoting the length
of the remaining bytes, 5 four bytes; no other wire type is well
formed. -/
def wfPayload (wty : Nat) (p : List Nat) : Prop :=
  if wty = 0 then isVarintBytes p = true
  else if wty = 1 then p.length = 8
  else if wty = 2 then
    ∃ l q, p = l ++ q ∧ isVarintBytes l = true ∧ varintValue l = q.length
  else if wty = 5 then p.length = 4
  else False

/-- Modelled from the spec: a well-formed wire record — a varint tag
whose value encodes a positive field number (`tag / 8`) and a wire type
(`tag % 8`), followed by a well-formed payload for that wire type. -/
def WFRecord (r : List Nat) : Prop :=
  ∃ t p, r = t ++ p ∧ isVarintBytes t = true ∧ 1 ≤ varintValue t / 8 ∧
    wfPayload (varintValue t % 8) p

theorem isVarintBytes_ne_nil (t : List Nat) (h : isVarintBytes t = true) : t ≠ [] := by
  intro hnil
  rw [hnil] at h
  simp [isVarintBytes] at h

theorem isVarintBytes_cons (b : Nat) (l : List Nat) (h : l ≠ []) :
    isVarintBytes (b :: l) = (decide (128 ≤ b) && isVarintBytes l) := by
  obtain ⟨x, xs, rfl⟩ := List.exists_cons_of_ne_nil h
  rfl

theorem consumeVarint_append : ∀ (t : List Nat), isVarintBytes t = true →
    ∀ r : List Nat, consumeVarint (t ++ r) = some (varintValue t, t.length)
  | [], h, _ => by simp [isVarintBytes] at h
  | [b], h, r => by
    have hb : b < 128 := by
      have : decide (b < 128) = true := h
      exact of_decide_eq_true this
    show consumeVarint (b :: r) = _
    rw [consumeVarint, if_pos hb]
    have : varintValue [b] = b := by
      show b % 128 + 128 * 0 = b
      rw [Nat.mod_eq_of_lt hb]
      omega
    rw [this]
    rfl
  | b :: x :: xs, h, r => by
    rw [isVarintBytes_cons b (x :: xs) (List.cons_ne_nil x xs)] at h
    obtain ⟨hb, hrest⟩ := Bool.and_eq_true _ _ |>.mp h
    have hb' : 128 ≤ b := of_decide_eq_true hb
    show consumeVarint (b :: (x :: xs ++ r)) = _
    rw [consumeVarint, if_neg (by omega)]
    rw [consumeVarint_append (x :: xs) hrest r]
    show some (b % 128 + 128 * varintValue (x :: xs), (x :: xs).length + 1) = _
    rfl

theorem consumeVarint_sound : ∀ (bs : List Nat) (v n : Nat),
    consumeVarint bs = some (v, n) →
    isVarintBytes (bs.take n) = true ∧ varintValue (bs.take n) = v
  | [], v, n, h => by simp [consumeVarint] at h
  | b :: rest, v, n, h => by
    by_cases hb : b < 128
    · rw [consumeVarint, if_pos hb] at h
      have hv : b = v := congrArg (fun o => (o.getD (0, 0)).1) h
      have hn : 1 = n := congrArg (fun o => (o.getD (0, 0)).2) h
      subst hv
      subst hn
      refine ⟨?_, ?_⟩
      · show decide (b < 128) = true
        exact decide_eq_true hb
      · show b % 128 + 128 * varintValue [] = b
        rw [Nat.mod_eq_of_lt hb]
        rfl
    · rw [consumeVarint, if_neg hb] at h
      cases hr : consumeVarint rest with
      | none => rw [hr] at h; exact absurd h (by simp)
      | some p =>
        obtain ⟨v', n'⟩ := p
        rw [hr] at h
        have hv : b % 128 + 128 * v' = v := congrArg (fun o => (o.getD (0, 0)).1) h
        have hn : n' + 1 = n := congrArg (fun o => (o.getD (0, 0)).2) h
        obtain ⟨ih1, ih2⟩ := consumeVarint_sound rest v' n' hr
        have hne : rest.take n' ≠ [] := isVarintBytes_ne_nil _ ih1
        subst hv
        subst hn
        rw [List.take_succ_cons]
        constructor
        · rw [isVarintBytes_cons b _ hne, ih1]
          simp
          omega
        · show b % 128 + 128 * varintValue (rest.take n') = _
          rw [ih2]

theorem consumeVarint_take_fail : ∀ (bs : List Nat) (v n m : Nat),
    consumeVarint bs = some (v, n) → m < n → consumeVarint (bs.take m) = none
  | [], v, n, m, h, _ => by simp [consumeVarint] at h
  | b :: rest, v, n, m, h, hm => by
    by_cases hb : b < 128
    · rw [consumeVarint, if_pos hb] at h
      have hn : 1 = n := congrArg (fun o => (o.getD (0, 0)).2) h
      have : m = 0 := by omega
      subst this
      rfl
    · rw [consumeVarint, if_neg hb] at h
      cases hr : consumeVarint rest with
      | none => rw [hr] at h; exact absurd h (by simp)
      | some p =>
        obtain ⟨v', n'⟩ := p
        rw [hr] at h
        have hn : n' + 1 = n := congrArg (fun o => (o.getD (0, 0)).2) h
        cases m with
        | zero => rfl
        | succ m' =>
          rw [List.take_succ_cons, consumeVarint, if_neg hb]
          rw [consumeVarint_take_fail rest v' n' m' hr (by omega)]

theorem consumeField_none (bs : List Nat) (hv : consumeVarint bs = none) :
    consumeField bs = none := by
  unfold consumeField
  rw [hv]

theorem consumeField_eq (bs : List Nat) (tag nv : Nat)
    (hv : consumeVarint bs = some (tag, nv)) :
    consumeField bs =
      if tag / 8 = 0 then none
      else
        match consumePayload (tag % 8) (bs.drop nv) with
        | none => none
        | some m => some (nv + m) := by
  unfold consumeField
  rw [hv]

theorem consumePayload_zero_eq (bs : List Nat) :
    consumePayload 0 bs =
      match consumeVarint bs with
      | none => none
      | some (_, n) => some n := by
  unfold consumePayload
  rw [if_pos rfl]

theorem consumePayload_one_eq (bs : List Nat) :
    consumePayload 1 bs = if 8 ≤ bs.length then some 8 else none := by
  unfold consumePayload
  rw [if_neg (by omega), if_pos rfl]

theorem consumePayload_two_eq (bs : List Nat) :
    consumePayload 2 bs =
      match consumeVarint bs with
      | none => none
      | some (len, n) => if len ≤ (bs.drop n).length then some (n + len) else none := by
  unfold consumePayload
  rw [if_neg (by omega), if_neg (by omega), if_pos rfl]

theorem consumePayload_five_eq (bs : List Nat) :
    consumePayload 5 bs = if 4 ≤ bs.length then some 4 else none := by
  unfold consumePayload
  rw [if_neg (by omega), if_neg (by omega), if_neg (by omega), if_pos rfl]

theorem wfPayload_cases (wty : Nat) (p : List Nat) (h : wfPayload wty p) :
    wty = 0 ∨ wty = 1 ∨ wty = 2 ∨ wty = 5 := by
  by_contra hcon
  push_neg at hcon
  obtain ⟨h0, h1, h2, h5⟩ := hcon
  unfold wfPayload at h
  rw [if_neg h0, if_neg h1, if_neg h2, if_neg h5] at h
  exact h

theorem wfPayload_zero (p : List Nat) (h : wfPayload 0 p) : isVarintBytes p = true := by
  unfold wfPayload at h
  rwa [if_pos rfl] at h

theorem wfPayload_one (p : List Nat) (h : wfPayload 1 p) : p.length = 8 := by
  unfold wfPayload at h
  rwa [if_neg (by omega), if_pos rfl] at h

theorem wfPayload_two (p : List Nat) (h : wfPayload 2 p) :
    ∃ l q, p = l ++ q ∧ isVarintBytes l = true ∧ varintValue l = q.length := by
  unfold wfPayload at h
  rwa [if_neg (by omega), if_neg (by omega), if_pos rfl] at h

theorem wfPayload_five (p : List Nat) (h : wfPayload 5 p) : p.length = 4 := by
  unfold wfPayload at h
  rwa [if_neg (by omega), if_neg (by omega), if_neg (by omega), if_pos rfl] at h

theorem varintBytes_len_pos (t : List Nat) (h : isVarintBytes t = true) :
    1 ≤ t.length := by
  cases t with
  | nil => exact absurd rfl (isVarintBytes_ne_nil [] h)
  | cons a as => simp

theorem wfPayload_len_pos (wty : Nat) (p : List Nat) (h : wfPayload wty p) :
    1 ≤ p.length := by
  rcases wfPayload_cases wty p h with rfl | rfl | rfl | rfl
  · exact varintBytes_len_pos p (wfPayload_zero p h)
  · rw [wfPayload_one p h]; omega
  · obtain ⟨l, q, rfl, hl, _⟩ := wfPayload_two p h
    have := varintBytes_len_pos l hl
    rw [List.length_append]
    omega
  · rw [wfPayload_five p h]; omega

theorem consumePayload_append (wty : Nat) (p : List Nat) (h : wfPayload wty p)
    (r : List Nat) : consumePayload wty (p ++ r) = some p.length := by
  rcases wfPayload_cases wty p h with rfl | rfl | rfl | rfl
  · rw [consumePayload_zero_eq, consumeVarint_append p (wfPayload_zero p h) r]
  · rw [consumePayload_one_eq,
      if_pos (by rw [List.length_append, wfPayload_one p h]; omega)]
    rw [wfPayload_one p h]
  · obtain ⟨l, q, rfl, hl, hlen⟩ := wfPayload_two p h
    rw [consumePayload_two_eq, List.append_assoc, consumeVarint_append l hl (q ++ r)]
    show (if varintValue l ≤ ((l ++ (q ++ r)).drop l.length).length
        then some (l.length + varintValue l) else none) = some (l ++ q).length
    rw [List.drop_left, hlen]
    rw [if_pos (by rw [List.length_append]; omega)]
    rw [List.length_append]
  · rw [consumePayload_five_eq,
      if_pos (by rw [List.length_append, wfPayload_five p h]; omega)]
    rw [wfPayload_five p h]

theorem consumePayload_sound (wty : Nat) (bs : List Nat) (m : Nat)
    (h : consumePayload wty bs = some m) : wfPayload wty (bs.take m) := by
  have hcases : wty = 0 ∨ wty = 1 ∨ wty = 2 ∨ wty = 5 := by
    by_contra hcon
    push_neg at hcon
    obtain ⟨h0, h1, h2, h5⟩ := hcon
    unfold consumePayload at h
    rw [if_neg h0, if_neg h1, if_neg h2, if_neg h5] at h
    exact absurd h (by simp)
  unfold wfPayload
  rcases hcases with rfl | rfl | rfl | rfl
  · rw [if_pos rfl]
    rw [consumePayload_zero_eq] at h
    cases hv : consumeVarint bs with
    | none => rw [hv] at h; exact absurd h (by simp)
    | some p =>
      obtain ⟨v, n⟩ := p
      rw [hv] at h
      have hm : n = m := congrArg (fun o => o.getD 0) h
      subst hm
      exact (consumeVarint_sound bs v n hv).1
  · rw [if_neg (by omega), if_pos rfl]
    rw [consumePayload_one_eq] at h
    by_cases hl : 8 ≤ bs.length
    · rw [if_pos hl] at h
      have hm : 8 = m := congrArg (fun o => o.getD 0) h
      subst hm
      rw [List.length_take]
      omega
    · rw [if_neg hl] at h; exact absurd h (by simp)
  · rw [if_neg (by omega), if_neg (by omega), if_pos rfl]
    rw [consumePayload_two_eq] at h
    cases hv : consumeVarint bs with
    | none => rw [hv] at h; exact absurd h (by simp)
    | some p =>
      obtain ⟨len, n⟩ := p
      rw [hv] at h
      have h' : (if len ≤ (bs.drop n).length then some (n + len) else none) =
          some m := h
      by_cases hq : len ≤ (bs.drop n).length
      · rw [if_pos hq] at h'
        have hm : n + len = m := congrArg (fun o => o.getD 0) h'
        subst hm
        obtain ⟨hvb, hvv⟩ := consumeVarint_sound bs len n hv
        obtain ⟨hn1, hn2⟩ := consumeVarint_bounds bs len n hv
        refine ⟨bs.take n, (bs.drop n).take len, ?_, hvb, ?_⟩
        · exact List.take_add bs n len
        · rw [hvv, List.length_take, Nat.min_eq_left hq]
      · rw [if_neg hq] at h'; exact absurd h' (by simp)
  · rw [if_neg (by omega), if_neg (by omega), if_neg (by omega), if_pos rfl]
    rw [consumePayload_five_eq] at h
    by_cases hl : 4 ≤ bs.length
    · rw [if_pos hl] at h
      have hm : 4 = m := congrArg (fun o => o.getD 0) h
      subst hm
      rw [List.length_take]
      omega
    · rw [if_neg hl] at h; exact absurd h (by simp)

theorem consumePayload_take_fail (wty : Nat) (bs : List Nat) (n m : Nat)
    (h : consumePayload wty bs = some n) (hm : m < n) :
    consumePayload wty (bs.take m) = none := by
  have hcases : wty = 0 ∨ wty = 1 ∨ wty = 2 ∨ wty = 5 := by
    by_contra hcon
    push_neg at hcon
    obtain ⟨h0, h1, h2, h5⟩ := hcon
    unfold consumePayload at h
    rw [if_neg h0, if_neg h1, if_neg h2, if_neg h5] at h
    exact absurd h (by simp)
  rcases hcases with rfl | rfl | rfl | rfl
  · rw [consumePayload_zero_eq] at h ⊢
    cases hv : consumeVarint bs with
    | none => rw [hv] at h; exact absurd h (by simp)
    | some p =>
      obtain ⟨v, nv⟩ := p
      rw [hv] at h
      have heq : nv = n := congrArg (fun o => o.getD 0) h
      rw [consumeVarint_take_fail bs v nv m hv (by omega)]
  · rw [consumePayload_one_eq] at h ⊢
    have hn : n = 8 := by
      by_cases hl : 8 ≤ bs.length
      · rw [if_pos hl] at h
        exact (congrArg (fun o => o.getD 0) h).symm
      · rw [if_neg hl] at h; exact absurd h (by simp)
    have hlen : (bs.take m).length ≤ m := by
      rw [List.length_take]
      exact Nat.min_le_left _ _
    rw [if_neg (by omega)]
  · rw [consumePayload_two_eq] at h ⊢
    cases hv : consumeVarint bs with
    | none => rw [hv] at h; exact absurd h (by simp)
    | some p =>
      obtain ⟨len, nv⟩ := p
      rw [hv] at h
      have h' : (if len ≤ (bs.drop nv).length then some (nv + len) else none) =
          some n := h
      by_cases hq : len ≤ (bs.drop nv).length
      · rw [if_pos hq] at h'
        have heq : nv + len = n := congrArg (fun o => o.getD 0) h'
        by_cases hc : m < nv
        · rw [consumeVarint_take_fail bs len nv m hv hc]
        · push_neg at hc
          obtain ⟨hvb, hvv⟩ := consumeVarint_sound bs len nv hv
          obtain ⟨hb1, hb2⟩ := consumeVarint_bounds bs len nv hv
          have hlen_take : (bs.take nv).length = nv := by
            rw [List.length_take]
            exact Nat.min_eq_left hb2
          have hsplit : bs.take m = bs.take nv ++ (bs.drop nv).take (m - nv) := by
            have hx : nv + (m - nv) = m := by omega
            have ht := List.take_add bs nv (m - nv)
            rwa [hx] at ht
          have hv2 : consumeVarint (bs.take m) = some (len, nv) := by
            rw [hsplit]
            have happ := consumeVarint_append (bs.take nv) hvb
              ((bs.drop nv).take (m - nv))
            rw [hvv, hlen_take] at happ
            exact happ
          rw [hv2]
          have hdrop : (bs.take m).drop nv = (bs.drop nv).take (m - nv) := by
            rw [hsplit]
            have hdl := List.drop_left (bs.take nv) ((bs.drop nv).take (m - nv))
            rwa [hlen_take] at hdl
          show (if len ≤ ((bs.take m).drop nv).length
              then some (nv + len) else none) = none
          rw [hdrop]
          rw [if_neg (by
            have hle : ((bs.drop nv).take (m - nv)).length ≤ m - nv := by
              rw [List.length_take]
              exact Nat.min_le_left _ _
            omega)]
      · rw [if_neg hq] at h'; exact absurd h' (by simp)
  · rw [consumePayload_five_eq] at h ⊢
    have hn : n = 4 := by
      by_cases hl : 4 ≤ bs.length
      · rw [if_pos hl] at h
        exact (congrArg (fun o => o.getD 0) h).symm
      · rw [if_neg hl] at h; exact absurd h (by simp)
    have hlen : (bs.take m).length ≤ m := by
      rw [List.length_take]
      exact Nat.min_le_left _ _
    rw [if_neg (by omega)]

theorem WFRecord_len_two (r : List Nat) (h : WFRecord r) : 2 ≤ r.length := by
  obtain ⟨t, p, rfl, ht, hnum, hp⟩ := h
  have h1 := varintBytes_len_pos t ht
  have h2 := wfPayload_len_pos _ p hp
  rw [List.length_append]
  omega

theorem WFRecord_ne_nil (r : List Nat) (h : WFRecord r) : r ≠ [] := by
  intro hnil
  have := WFRecord_len_two r h
  rw [hnil] at this
  simp at this

theorem consumeField_append (r : List Nat) (h : WFRecord r) (rest : List Nat) :
    consumeField (r ++ rest) = some r.length := by
  obtain ⟨t, p, rfl, ht, hnum, hp⟩ := h
  rw [List.append_assoc]
  rw [consumeField_eq (t ++ (p ++ rest)) (varintValue t) t.length
    (consumeVarint_append t ht (p ++ rest))]
  rw [if_neg (by omega)]
  rw [List.drop_left]
  rw [consumePayload_append _ p hp rest]
  rw [List.length_append]

theorem consumeField_sound (bs : List Nat) (n : Nat) (h : consumeField bs = some n) :
    WFRecord (bs.take n) := by
  unfold consumeField at h
  cases hv : consumeVarint bs with
  | none => rw [hv] at h; exact absurd h (by simp)
  | some pr =>
    obtain ⟨tag, nv⟩ := pr
    rw [hv] at h
    have h' : (if tag / 8 = 0 then none
        else match consumePayload (tag % 8) (bs.drop nv) with
          | none => none
          | some m => some (nv + m)) = some n := h
    by_cases hz : tag / 8 = 0
    · rw [if_pos hz] at h'; exact absurd h' (by simp)
    · rw [if_neg hz] at h'
      cases hp : consumePayload (tag % 8) (bs.drop nv) with
      | none => rw [hp] at h'; exact absurd h' (by simp)
      | some m =>
        rw [hp] at h'
        have hnm : nv + m = n := congrArg (fun o => o.getD 0) h'
        obtain ⟨hvb, hvv⟩ := consumeVarint_sound bs tag nv hv
        have hwf := consumePayload_sound (tag % 8) (bs.drop nv) m hp
        refine ⟨bs.take nv, (bs.drop nv).take m, ?_, hvb, ?_, ?_⟩
        · rw [← hnm]
          exact List.take_add bs nv m
        · rw [hvv]; omega
        · rw [hvv]; exact hwf

theorem consumeField_take_fail (bs : List Nat) (n m : Nat)
    (h : consumeField bs = some n) (hm : m < n) : consumeField (bs.take m) = none := by
  unfold consumeField at h
  cases hv : consumeVarint bs with
  | none => rw [hv] at h; exact absurd h (by simp)
  | some pr =>
    obtain ⟨tag, nv⟩ := pr
    rw [hv] at h
    have h' : (if tag / 8 = 0 then none
        else match consumePayload (tag % 8) (bs.drop nv) with
          | none => none
          | some m => some (nv + m)) = some n := h
    by_cases hz : tag / 8 = 0
    · rw [if_pos hz] at h'; exact absurd h' (by simp)
    · rw [if_neg hz] at h'
      cases hp : consumePayload (tag % 8) (bs.drop nv) with
      | none => rw [hp] at h'; exact absurd h' (by simp)
      | some mp =>
        rw [hp] at h'
        have hnm : nv + mp = n := congrArg (fun o => o.getD 0) h'
        by_cases hc : m < nv
        · exact consumeField_none _ (consumeVarint_take_fail bs tag nv m hv hc)
        · push_neg at hc
          obtain ⟨hvb, hvv⟩ := consumeVarint_sound bs tag nv hv
          obtain ⟨hb1, hb2⟩ := consumeVarint_bounds bs tag nv hv
          have hlen_take : (bs.take nv).length = nv := by
            rw [List.length_take]
            exact Nat.min_eq_left hb2
          have hsplit : bs.take m = bs.take nv ++ (bs.drop nv).take (m - nv) := by
            have hx : nv + (m - nv) = m := by omega
            have ht := List.take_add bs nv (m - nv)
            rwa [hx] at ht
          have hv2 : consumeVarint (bs.take m) = some (tag, nv) := by
            rw [hsplit]
            have happ := consumeVarint_append (bs.take nv) hvb
              ((bs.drop nv).take (m - nv))
            rw [hvv, hlen_take] at happ
            exact happ
          rw [consumeField_eq (bs.take m) tag nv hv2, if_neg hz]
          have hdrop : (bs.take m).drop nv = (bs.drop nv).take (m - nv) := by
            rw [hsplit]
            have hdl := List.drop_left (bs.take nv) ((bs.drop nv).take (m - nv))
            rwa [hlen_take] at hdl
          rw [hdrop]
          rw [consumePayload_take_fail (tag % 8) (bs.drop nv) mp (m - nv) hp (by omega)]

theorem isValid_wf_append (r bs : List Nat) (h : WFRecord r) :
    RawFields.IsValid (r ++ bs) = RawFields.IsValid bs := by
  have hcf := consumeField_append r h bs
  have hrne := WFRecord_ne_nil r h
  have hne : r ++ bs ≠ [] := by
    intro hnil
    exact hrne (List.append_eq_nil.mp hnil).1
  rw [isValid_step (r ++ bs) r.length hne hcf, List.drop_left]

theorem isValid_flatten (rs : List (List Nat)) (h : ∀ r ∈ rs, WFRecord r) :
    RawFields.IsValid rs.flatten = true := by
  induction rs with
  | nil => exact isValid_nil
  | cons r rest ih =>
    rw [List.flatten_cons, isValid_wf_append r _ (h r (List.mem_cons_self r rest))]
    exact ih (fun u hu => h u (List.mem_cons_of_mem r hu))

theorem isValid_records : ∀ bs : List Nat, RawFields.IsValid bs = true →
    ∃ rs : List (List Nat), (∀ r ∈ rs, WFRecord r) ∧ bs = rs.flatten
  | bs, h => by
    by_cases hb : bs = []
    · exact ⟨[], by simp, by simp [hb]⟩
    · cases hc : consumeField bs with
      | none =>
        rw [isValid_fail bs hb hc] at h
        exact absurd h (by simp)
      | some n =>
        rw [isValid_step bs n hb hc] at h
        have hwf := consumeField_sound bs n hc
        obtain ⟨h1, h2⟩ := consumeField_pos bs n hc
        have hlt : (bs.drop n).length < bs.length := by
          rw [List.length_drop]
          have : bs.length ≠ 0 := fun h0 => hb (List.eq_nil_of_length_eq_zero h0)
          omega
        obtain ⟨rs, hrs, hflat⟩ := isValid_records (bs.drop n) h
        refine ⟨bs.take n :: rs, ?_, ?_⟩
        · intro r hr
          rcases List.mem_cons.mp hr with rfl | hr
          · exact hwf
          · exact hrs r hr
        · rw [List.flatten_cons, ← hflat, List.take_append_drop]
  termination_by bs => bs.length

theorem flatten_wf_ne_nil (rs : List (List Nat)) (h : ∀ r ∈ rs, WFRecord r)
    (hne : rs ≠ []) : rs.flatten ≠ [] := by
  obtain ⟨r, rest, rfl⟩ := List.exists_cons_of_ne_nil hne
  rw [List.flatten_cons]
  intro hnil
  exact WFRecord_ne_nil r (h r (List.mem_cons_self r rest))
    (List.append_eq_nil.mp hnil).1

theorem isValid_dropLast_false : ∀ rs : List (List Nat), (∀ r ∈ rs, WFRecord r) →
    rs ≠ [] → RawFields.IsValid rs.flatten.dropLast = false
  | [], _, hne => absurd rfl hne
  | [r], h, _ => by
    have hwf := h r (List.mem_cons_self r [])
    have h2 := WFRecord_len_two r hwf
    have hcf : consumeField r = some r.length := by
      have := consumeField_append r hwf []
      rwa [List.append_nil] at this
    have hfail : consumeField r.dropLast = none := by
      rw [List.dropLast_eq_take]
      exact consumeField_take_fail r r.length (r.length - 1) hcf (by omega)
    have hne : r.dropLast ≠ [] := by
      intro hnil
      have := congrArg List.length hnil
      rw [List.length_dropLast] at this
      simp at this
      omega
    have hflat : ([r] : List (List Nat)).flatten = r := by simp
    rw [hflat]
    exact isValid_fail r.dropLast hne hfail
  | r :: u :: rest, h, _ => by
    have hfne : (u :: rest).flatten ≠ [] :=
      flatten_wf_ne_nil (u :: rest)
        (fun v hv => h v (List.mem_cons_of_mem r hv)) (List.cons_ne_nil u rest)
    rw [List.flatten_cons, List.dropLast_append_of_ne_nil _ hfne]
    rw [isValid_wf_append r _ (h r (List.mem_cons_self r (u :: rest)))]
    exact isValid_dropLast_false (u :: rest)
      (fun v hv => h v (List.mem_cons_of_mem r hv)) (List.cons_ne_nil u rest)

/-- C1: `RawFields.IsValid` accepts exactly the concatenations of
well-formed wire records: a run built from any list of well-formed
records is valid (the empty run included), removing the last byte of
such a non-empty run makes it invalid, and conversely every valid run
decomposes into a concatenation of well-formed records. -/
theorem isValid_characterization :
    (∀ rs : List (List Nat), (∀ r ∈ rs, WFRecord r) →
      RawFields.IsValid rs.flatten = true) ∧
    (∀ rs : List (List Nat), (∀ r ∈ rs, WFRecord r) → rs ≠ [] →
      RawFields.IsValid rs.flatten.dropLast = false) ∧
    (∀ bs : List Nat, RawFields.IsValid bs = true →
      ∃ rs : List (List Nat), (∀ r ∈ rs, WFRecord r) ∧ bs = rs.flatten) :=
  ⟨isValid_flatten, isValid_dropLast_false, isValid_records⟩

/-- Witness for C1 on the single record `[8, 0]` (field number 1, wire
type 0, varint payload 0): the one-record run is valid and the run with
its last byte removed is invalid. -/
theorem isValid_characterization_witness :
    RawFields.IsValid [8, 0] = true ∧ RawFields.IsValid [8] = false := by
  have h := isValid_characterization
  have hwf : ∀ r ∈ [[8, 0]], WFRecord r := by
    intro r hr
    rcases List.mem_cons.mp hr with rfl | hr
    · refine ⟨[8], [0], rfl, by decide, ?_, ?_⟩
      · show 1 ≤ varintValue [8] / 8
        have hv : varintValue [8] = 8 := by decide
        rw [hv]
      · have hv : varintValue [8] % 8 = 0 := by decide
        rw [hv]
        unfold wfPayload
        rw [if_pos rfl]
        decide
    · simp at hr
  constructor
  · exact h.1 [[8, 0]] hwf
  · exact h.2.1 [[8, 0]] hwf (by simp)

/-! ## Populated-field containers

`KnownFields`, `UnknownFields`, `Map` and `ExtensionFieldTypes` are
declared in the source only as interfaces; their storage is modelled
from the spec (§3, §4): each container holds exactly one entry per
populated key, `List()` returns an unordered snapshot of the populated
keys, and `Len()` reports the number of populated entries. -/

/-- Modelled from the spec: generic populated-entry storage — an
association list holding one entry per populated key. -/
structure FieldTable (K V : Type) where
  entries : List (K × V)

/-- The populated-key snapshot, spec operation `List()`. -/
def FieldTable.list {K V : Type} (t : FieldTable K V) : List K :=
  t.entries.map Prod.fst

/-- The populated count, spec operation `Len()`. -/
def FieldTable.len {K V : Type} (t : FieldTable K V) : Nat :=
  t.entries.length

/-- Remove the entry of a key from an association list. -/
def removeKey {K V : Type} [DecidableEq K] (es : List (K × V)) (k : K) :
    List (K × V) :=
  es.filter (fun e => decide (e.1 ≠ k))

/-- Insert or replace the entry of a key in an association list. -/
def putKey {K V : Type} [DecidableEq K] (es : List (K × V)) (k : K) (v : V) :
    List (K × V) :=
  removeKey es k ++ [(k, v)]

/-- Modelled from the spec §4.5: the `KnownFieldTable` mutators that can
change the populated set — `Set` with a value populates a field, `Set`
with Null clears it, and `Mutable` zero-initializes an absent field. -/
inductive KnownOp (K V : Type) where
  | set (k : K) (v : Option V)
  | mutableInit (k : K) (zero : V)

/-- Modelled from the spec §4.5: apply one `KnownFieldTable` mutator. -/
def applyKnownOp {K V : Type} [DecidableEq K] (t : FieldTable K V) :
    KnownOp K V → FieldTable K V
  | .set k (some v) => ⟨putKey t.entries k v⟩
  | .set k none => ⟨removeKey t.entries k⟩
  | .mutableInit k zero =>
    if t.entries.any (fun e => decide (e.1 = k)) then t
    else ⟨t.entries ++ [(k, zero)]⟩

/-- Modelled from the spec §4.6: the `UnknownFieldTable` mutator —
`Set` with non-empty raw bytes replaces a field number's records, `Set`
with an empty run clears the field number. -/
inductive UnknownOp (K : Type) where
  | set (k : K) (raw : List Nat)

/-- Modelled from the spec §4.6: apply one `UnknownFieldTable` mutator;
when the message does not support unknown fields, `Set` is a no-op. -/
def applyUnknownOp {K : Type} [DecidableEq K] (supported : Bool)
    (t : FieldTable K (List Nat)) : UnknownOp K → FieldTable K (List Nat)
  | .set k raw =>
    if supported = false then t
    else if raw = [] then ⟨removeKey t.entries k⟩
    else ⟨putKey t.entries k raw⟩

/-- Modelled from the spec §4.4: the `Map` mutators — `Set` stores a
non-null value for a key (overwriting any existing entry), `Mutable`
creates a zero-valued entry for an absent key. -/
inductive MapOp (K V : Type) where
  | set (k : K) (v : V)
  | mutableInit (k : K) (zero : V)

/-- Modelled from the spec §4.4: apply one `Map` mutator. -/
def applyMapOp {K V : Type} [DecidableEq K] (t : FieldTable K V) :
    MapOp K V → FieldTable K V
  | .set k v => ⟨putKey t.entries k v⟩
  | .mutableInit k zero =>
    if t.entries.any (fun e => decide (e.1 = k)) then t
    else ⟨t.entries ++ [(k, zero)]⟩

/-- Modelled from the spec: an extension field type — field number,
full name, and (elided) extended-type identity. -/
structure ExtTy where
  num : Nat
  name : List Char
deriving DecidableEq

/-- Modelled from the spec §4.7: a per-instance extension registry. -/
structure ExtRegistry where
  entries : List ExtTy

/-- The registered-extension snapshot, spec operation `List()`. -/
def ExtRegistry.list (t : ExtRegistry) : List ExtTy := t.entries

/-- The registered-extension count, spec operation `Len()`. -/
def ExtRegistry.len (t : ExtRegistry) : Nat := t.entries.length

/-- Modelled from the spec §4.7: the `ExtensionFieldTypes` mutators. -/
inductive ExtOp where
  | register (e : ExtTy)
  | remove (e : ExtTy)

/-- Modelled from the spec §4.7: apply one registry mutator — `Register`
leaves the registry unchanged on a field-number or name conflict,
`Remove` deletes the registration of the extension's field number. -/
def applyExtOp (t : ExtRegistry) : ExtOp → ExtRegistry
  | .register e =>
    if t.entries.any (fun x => decide (x.num = e.num) || decide (x.name = e.name))
    then t
    else ⟨t.entries ++ [e]⟩
  | .remove e => ⟨t.entries.filter (fun x => decide (x.num ≠ e.num))⟩

/-- Run a sequence of `KnownFieldTable` mutators from the empty table. -/
def runKnownOps {K V : Type} [DecidableEq K] (ops : List (KnownOp K V)) :
    FieldTable K V :=
  ops.foldl applyKnownOp ⟨[]⟩

/-- Run a sequence of `UnknownFieldTable` mutators from the empty table. -/
def runUnknownOps {K : Type} [DecidableEq K] (supported : Bool)
    (ops : List (UnknownOp K)) : FieldTable K (List Nat) :=
  ops.foldl (applyUnknownOp supported) ⟨[]⟩

/-- Run a sequence of `Map` mutators from the empty map. -/
def runMapOps {K V : Type} [DecidableEq K] (ops : List (MapOp K V)) :
    FieldTable K V :=
  ops.foldl applyMapOp ⟨[]⟩

/-- Run a sequence of registry mutators from the empty registry. -/
def runExtOps (ops : List ExtOp) : ExtRegistry :=
  ops.foldl applyExtOp ⟨[]⟩

/-- C6: after any sequence of operations, the populated count equals the
length of the populated snapshot — `Len() == len(List())` — on the
known-field table, the unknown-field table, the map, and the extension
registry alike. -/
theorem len_eq_list_length (K V : Type) [DecidableEq K] :
    (∀ ops : List (KnownOp K V),
      (runKnownOps ops).len = (runKnownOps ops).list.length) ∧
    (∀ (supported : Bool) (ops : List (UnknownOp K)),
      (runUnknownOps supported ops).len =
        (runUnknownOps supported ops).list.length) ∧
    (∀ ops : List (MapOp K V),
      (runMapOps ops).len = (runMapOps ops).list.length) ∧
    (∀ ops : List ExtOp, (runExtOps ops).len = (runExtOps ops).list.length) := by
  refine ⟨?_, ?_, ?_, ?_⟩
  · intro ops
    simp [FieldTable.len, FieldTable.list, List.length_map]
  · intro supported ops
    simp [FieldTable.len, FieldTable.list, List.length_map]
  · intro ops
    simp [FieldTable.len, FieldTable.list, List.length_map]
  · intro ops
    rfl

end ProtoGen
